import Mathlib

/-!
Verification of the Fermat primality tester in `fermat.py`.

The source computes with numpy: `np.mod`, `np.power` and arithmetic on
`np.int64` values wrap around modulo 2^64 (two's complement), `np.mod`
by zero returns 0 with a RuntimeWarning instead of raising, and
`np.floor(y/2)` goes through float64 (exact for `y < 2^53`, which covers
every exponent appearing in the claims).  The embedding below models the
integer data flow of the source faithfully, including the int64
wraparound of `np.power(z, 2)` and of the product `x*np.power(z, 2)`
(`wrap64`), and numpy's convention that the remainder has the sign of
the divisor and that a zero divisor yields 0 (`npMod`).  The float
square root `s = np.sqrt(N)` is only used in the comparison `a > s`
with an integer `a`, which is equivalent to `N < a*a`; this is exact
for every `N` in range of the theorems below (float64 sqrt is correctly
rounded, so the two tests agree for `N < 2^52`).  Loops are modelled by
structural recursion on an explicit fuel equal to the number of
iterations the Python loop performs, and recursion in `mod_exp`/`gcd`
by fuel bounding the recursion depth, so that all definitions evaluate
by `decide`/`rfl`.  Python's `gcd` raises `ZeroDivisionError` when it
reaches `a % 0`; it is embedded as an `Option`-valued function where
`none` is the raised exception.  `prime_test`'s random draw
`np.random.randint(1, N)` is modelled by an oracle `ws : ℕ → ℤ` giving
the i-th draw, and its `ValueError` when `N ≤ 1` by returning `none`.
-/

namespace Fermat

/-- Two's complement wraparound of numpy int64 arithmetic: the value an
int64 holds after an operation whose exact result is `z`.  The literals
are 2^63 and 2^64. -/
def wrap64 (z : ℤ) : ℤ :=
  (z + 9223372036854775808) % 18446744073709551616 - 9223372036854775808

/-- Model of `np.mod a b` on integers: the remainder has the sign of the
divisor (for the positive divisors used here this is `Int.emod`, which
agrees with Python's `%`), and a zero divisor yields 0 (numpy emits a
RuntimeWarning but returns 0 rather than raising). -/
def npMod (a b : ℤ) : ℤ := if b = 0 then 0 else a % b

/-- Model of the recursion of `mod_exp` (fermat.py lines 87-101) with
explicit fuel bounding the recursion depth.  `z = mod_exp(x, np.floor(y/2), N)`
is the recursive call; the even branch returns `np.mod(np.power(z, 2), N)`
and the odd branch `np.mod(x*np.power(z, 2), N)`, with `np.power` and the
product wrapping around as int64. -/
def modExpF (x N : ℤ) : ℕ → ℤ → ℤ
  | 0, _ => 1
  | fuel + 1, y =>
    if y = 0 then 1
    else
      let z := modExpF x N fuel (y / 2)
      if y % 2 = 0 then npMod (wrap64 (z ^ 2)) N
      else npMod (wrap64 (x * wrap64 (z ^ 2))) N

/-- `mod_exp(x, y, N)` of fermat.py lines 87-101.  The fuel `y.toNat`
dominates the recursion depth (the exponent at least halves each call),
so this equals the source's recursion for every `y ≥ 0`. -/
def mod_exp (x y N : ℤ) : ℤ := modExpF x N y.toNat y

/-- Model of the recursion of `gcd` (fermat.py lines 190-198) with fuel.
`none` models the `ZeroDivisionError` Python raises at `a % 0` when
`b = 0` is reached (the fuel is always chosen large enough that `none`
can only mean that error). -/
def gcdF : ℕ → ℤ → ℤ → Option ℤ
  | 0, _, _ => none
  | fuel + 1, a, b =>
    if a < b then gcdF fuel b a
    else if b = 0 then none
    else if a % b = 0 then some b
    else gcdF fuel b (a % b)

/-- `gcd(a, b)` of fermat.py lines 190-198; the fuel `a.toNat + b.toNat + 2`
exceeds the recursion depth of the Euclidean algorithm on any pair on
which Python's recursion terminates. -/
def gcd (a b : ℤ) : Option ℤ := gcdF (a.toNat + b.toNat + 2) a b

/-- Value of the source's `gcd(a, N)` inside `is_carmichael`'s loop.
There the arguments satisfy `2 ≤ a < N`, so the call never raises and
the default 0 for the error case is never taken. -/
def gcdD (a b : ℤ) : ℤ := (gcd a b).getD 0

/-- Model of the `while a < N` loop of `is_carmichael` (fermat.py lines
169-183), with fuel equal to the remaining iterations.  `ff` is the
`factor_found` flag.  The test `a > s` with `s = np.sqrt(N)` is the
integer test `N < a*a` (exact for the ranges considered; see module
comment). -/
def carmLoop (N : ℤ) : ℕ → ℤ → Bool → Bool
  | 0, _, _ => true
  | fuel + 1, a, ff =>
    if a < N then
      if N < a * a ∧ ff = false then false
      else if 1 < gcdD a N then carmLoop N fuel (a + 1) true
      else if mod_exp a (N - 1) N ≠ 1 then false
      else carmLoop N fuel (a + 1) ff
    else true

/-- `is_carmichael(N)` of fermat.py lines 161-185: even numbers are
rejected, then the loop runs `a = 2, 3, ...` while `a < N`, i.e. for
`(N - 2).toNat` iterations. -/
def is_carmichael (N : ℤ) : Bool :=
  if N % 2 = 0 then false
  else carmLoop N (N - 2).toNat 2 false

/-- Classification string returned by `prime_test` for primes. -/
def resultPrime : String := "prime"

/-- Classification string returned by `prime_test` for composites. -/
def resultComposite : String := "composite"

/-- Classification string returned by `prime_test` for Carmichael numbers. -/
def resultCarmichael : String := "carmichael"

/-- Model of the witness loop of `prime_test` (fermat.py lines 39-50):
`i` is the index of the next random draw from the oracle `ws`, and the
second argument the number of remaining iterations.  `none` models the
`ValueError` that `np.random.randint(1, N)` raises when `N ≤ 1`. -/
def ptLoop (N : ℤ) (ws : ℕ → ℤ) : ℕ → ℕ → Option String
  | _, 0 => some resultPrime
  | i, r + 1 =>
    if N ≤ 1 then none
    else if mod_exp (ws i) (N - 1) N = 1 then ptLoop N ws (i + 1) r
    else some resultComposite

/-- `prime_test(N, k)` of fermat.py lines 35-51, with the k random draws
supplied by the oracle `ws`.  Python's `range(0, k)` performs
`k.toNat` iterations (none when `k ≤ 0`). -/
def prime_test (N k : ℤ) (ws : ℕ → ℤ) : Option String :=
  if is_carmichael N then some resultCarmichael else ptLoop N ws 0 k.toNat

/-- `probability(k)` of fermat.py lines 124-127, with the integer data
flow exact: `np.power(2, k)` is int64 and wraps around (`wrap64`), and
the subsequent float arithmetic `(1 - 1/p)*100` is modelled exactly in
ℚ.  When the wrapped power is 0 (`k = 64`), `1/0` produces a non-finite
float (inf, with a RuntimeWarning), modelled as `none`. -/
def probability (k : ℕ) : Option ℚ :=
  let p := wrap64 (2 ^ k)
  if p = 0 then none else some ((1 - 1 / (p : ℚ)) * 100)

/-- Mathematical definition of a Carmichael number as stated by the
claim: `N` is odd, composite (greater than 1 and not prime), and every
base `a` coprime to `N` satisfies `a^(N-1) ≡ 1 (mod N)` (bases are taken
in the residue range `1 ≤ a < N`, which is equivalent to all coprime
integer bases since the power mod `N` only depends on `a mod N`). -/
def carmichaelSpec (N : ℤ) : Prop :=
  N % 2 = 1 ∧ 1 < N ∧ ¬ Nat.Prime N.toNat ∧
    ∀ a : ℤ, 1 ≤ a → a < N → Int.gcd a N = 1 → (a ^ (N - 1).toNat) % N = 1

/-- Witness oracle that always draws 1 (a legal draw for every N ≥ 2). -/
def wsOne : ℕ → ℤ := fun _ => 1

/-- Witness oracle that always draws 2. -/
def wsTwo : ℕ → ℤ := fun _ => 2

/-- Witness oracle that always draws 3999970, a legal draw from
`[1, N-1]` for `N = 3999971`. -/
def wsBig : ℕ → ℤ := fun _ => 3999970

/-! Basic facts about the int64 wraparound and numpy remainder. -/

lemma wrap64_eq_self {t : ℤ} (h0 : 0 ≤ t) (h1 : t < 2 ^ 63) : wrap64 t = t := by
  unfold wrap64
  rw [Int.emod_eq_of_lt (by omega) (by omega)]
  omega

lemma npMod_of_ne {a b : ℤ} (h : b ≠ 0) : npMod a b = a % b := by
  unfold npMod
  rw [if_neg h]

lemma npMod_zero (a : ℤ) : npMod a 0 = 0 := rfl

/-! Correctness of `mod_exp` on inputs whose intermediate values stay in
the int64-exact range: if `N^2 < 2^63` and `x*N^2 < 2^63` then no
wraparound occurs and the recursion computes `x^y mod N`. -/

lemma modExpF_correct {x N : ℤ} (hx : 0 ≤ x) (hN : 2 ≤ N)
    (hN2 : N ^ 2 < 2 ^ 63) (hxN2 : x * N ^ 2 < 2 ^ 63) :
    ∀ (fuel : ℕ) (y : ℤ), 0 ≤ y → y < 2 ^ fuel →
      modExpF x N fuel y = (x ^ y.toNat) % N := by
  intro fuel
  induction fuel with
  | zero =>
    intro y hy0 hylt
    have hy : y = 0 := by
      have : (2 : ℤ) ^ 0 = 1 := by norm_num
      omega
    subst hy
    have h1 : (1 : ℤ) % N = 1 := Int.emod_eq_of_lt (by omega) (by omega)
    simp [modExpF, h1]
  | succ fuel ih =>
    intro y hy0 hylt
    by_cases hy : y = 0
    · subst hy
      have h1 : (1 : ℤ) % N = 1 := Int.emod_eq_of_lt (by omega) (by omega)
      simp [modExpF, h1]
    · have h2f : (0 : ℤ) < 2 ^ fuel := by positivity
      have h2s : (2 : ℤ) ^ (fuel + 1) = 2 * 2 ^ fuel := by ring
      have hydiv0 : 0 ≤ y / 2 := by omega
      have hydivlt : y / 2 < 2 ^ fuel := by omega
      have hz := ih (y / 2) hydiv0 hydivlt
      set m := (y / 2).toNat with hm
      set z := modExpF x N fuel (y / 2) with hzdef
      have hz0 : 0 ≤ z := by
        rw [hz]
        exact Int.emod_nonneg _ (by omega)
      have hzN : z < N := by
        rw [hz]
        exact Int.emod_lt_of_pos _ (by omega)
      have hzsqN : z ^ 2 < N ^ 2 := by nlinarith
      have hwz : wrap64 (z ^ 2) = z ^ 2 := wrap64_eq_self (by positivity) (by omega)
      have hmm : ((x ^ m) % N) ≡ x ^ m [ZMOD N] := Int.emod_emod_of_dvd _ dvd_rfl
      rw [show modExpF x N (fuel + 1) y =
            (if y = 0 then 1
             else
               if y % 2 = 0 then npMod (wrap64 ((modExpF x N fuel (y / 2)) ^ 2)) N
               else npMod (wrap64 (x * wrap64 ((modExpF x N fuel (y / 2)) ^ 2))) N)
          from rfl]
      rw [if_neg hy, ← hzdef, hwz]
      by_cases hpar : y % 2 = 0
      · rw [if_pos hpar, npMod_of_ne (by omega)]
        have hyt : y.toNat = 2 * m := by omega
        rw [hz, hyt]
        calc (((x ^ m) % N) ^ 2) % N
            = ((x ^ m) ^ 2) % N := hmm.pow 2
          _ = (x ^ (2 * m)) % N := by
              congr 1
              ring
      · rw [if_neg hpar]
        have hxz0 : 0 ≤ x * z ^ 2 := by positivity
        have hxzlt : x * z ^ 2 < 2 ^ 63 := by
          have hzz : 0 ≤ z ^ 2 := by positivity
          have h1 : x * z ^ 2 ≤ x * N ^ 2 := by nlinarith
          omega
        rw [wrap64_eq_self hxz0 hxzlt, npMod_of_ne (by omega)]
        have hyt : y.toNat = 2 * m + 1 := by omega
        rw [hz, hyt]
        calc (x * ((x ^ m) % N) ^ 2) % N
            = (x * (x ^ m) ^ 2) % N := (hmm.pow 2).mul_left x
          _ = (x ^ (2 * m + 1)) % N := by
              congr 1
              ring

lemma mod_exp_eq_pow {x y N : ℤ} (hx : 0 ≤ x) (hy : 0 ≤ y) (hN : 2 ≤ N)
    (hN2 : N ^ 2 < 2 ^ 63) (hxN2 : x * N ^ 2 < 2 ^ 63) :
    mod_exp x y N = (x ^ y.toNat) % N := by
  apply modExpF_correct hx hN hN2 hxN2 y.toNat y hy
  have h := Nat.lt_two_pow y.toNat
  have h2 : ((2 : ℕ) ^ y.toNat : ℤ) = (2 : ℤ) ^ y.toNat := by push_cast; ring
  omega

/-! Adequacy of the fuel for the source's `gcd`: on positive arguments the
recursion terminates within the provided fuel and computes the
mathematical gcd, so `none` is reserved for the division-by-zero error. -/

lemma int_gcd_step {a b : ℤ} (hb : 1 ≤ b) (hba : b ≤ a) :
    Int.gcd b (a % b) = Int.gcd a b := by
  have h1 : (a % b).natAbs = a.natAbs % b.natAbs := by
    have e : a % b = ((a.natAbs % b.natAbs : ℕ) : ℤ) := by
      conv_lhs =>
        rw [← Int.natAbs_of_nonneg (show 0 ≤ a by omega),
          ← Int.natAbs_of_nonneg (show 0 ≤ b by omega)]
      rw [← Int.natCast_mod]
    rw [e, Int.natAbs_ofNat]
  show Nat.gcd b.natAbs (a % b).natAbs = Nat.gcd a.natAbs b.natAbs
  rw [h1]
  calc Nat.gcd b.natAbs (a.natAbs % b.natAbs)
      = Nat.gcd (a.natAbs % b.natAbs) b.natAbs := Nat.gcd_comm _ _
    _ = Nat.gcd b.natAbs a.natAbs := (Nat.gcd_rec _ _).symm
    _ = Nat.gcd a.natAbs b.natAbs := Nat.gcd_comm _ _

lemma gcdF_eq : ∀ (fuel : ℕ) (a b : ℤ), 1 ≤ b → b ≤ a → a.toNat + 1 ≤ fuel →
    gcdF fuel a b = some ((Int.gcd a b : ℕ) : ℤ) := by
  intro fuel
  induction fuel with
  | zero =>
    intro a b hb hba hf
    exact ((by omega : False)).elim
  | succ fuel ih =>
    intro a b hb hba hf
    rw [show gcdF (fuel + 1) a b =
          (if a < b then gcdF fuel b a
           else if b = 0 then none
           else if a % b = 0 then some b
           else gcdF fuel b (a % b)) from rfl]
    rw [if_neg (by omega), if_neg (by omega)]
    by_cases hd : a % b = 0
    · rw [if_pos hd]
      rw [Int.gcd_eq_right (Int.dvd_of_emod_eq_zero hd)]
      congr 1
      omega
    · rw [if_neg hd]
      have hr1 : 1 ≤ a % b := by
        have := Int.emod_nonneg a (show b ≠ 0 by omega)
        omega
      have hba' : b < a := by
        rcases eq_or_lt_of_le hba with rfl | h
        · exact absurd Int.emod_self hd
        · exact h
      have hrb : a % b < b := Int.emod_lt_of_pos a (by omega)
      rw [ih b (a % b) hr1 (by omega) (by omega)]
      rw [int_gcd_step hb hba]

lemma gcd_eq_of_pos {a b : ℤ} (ha : 1 ≤ a) (hb : 1 ≤ b) :
    gcd a b = some ((Int.gcd a b : ℕ) : ℤ) := by
  unfold gcd
  rcases le_or_lt b a with h | h
  · exact gcdF_eq _ a b hb h (by omega)
  · rw [show gcdF (a.toNat + b.toNat + 2) a b =
          (if a < b then gcdF (a.toNat + b.toNat + 1) b a
           else if b = 0 then none
           else if a % b = 0 then some b
           else gcdF (a.toNat + b.toNat + 1) b (a % b)) from rfl]
    rw [if_pos h]
    rw [gcdF_eq _ b a ha (le_of_lt h) (by omega)]
    rw [Int.gcd_comm]

lemma gcdD_eq_gcd {a b : ℤ} (ha : 1 ≤ a) (hb : 1 ≤ b) :
    gcdD a b = ((Int.gcd a b : ℕ) : ℤ) := by
  unfold gcdD
  rw [gcd_eq_of_pos ha hb]
  rfl

/-! Characterisation of the `is_carmichael` loop.  The loop returns true
iff no iteration returns false, i.e. iff for every candidate `b` in the
remaining range: the prime-detection test `b > sqrt N` never fires
without a factor having been found at some earlier candidate, and every
candidate coprime to `N` passes Fermat's test. -/

lemma carmLoop_succ (N : ℤ) (fuel : ℕ) (a : ℤ) (ff : Bool) :
    carmLoop N (fuel + 1) a ff =
      if a < N then
        if N < a * a ∧ ff = false then false
        else if 1 < gcdD a N then carmLoop N fuel (a + 1) true
        else if mod_exp a (N - 1) N ≠ 1 then false
        else carmLoop N fuel (a + 1) ff
      else true := rfl

lemma carmLoop_true_iff (N : ℤ) :
    ∀ (fuel : ℕ) (a : ℤ) (ff : Bool), 2 ≤ a → a + (fuel : ℤ) = N →
      (carmLoop N fuel a ff = true ↔
        ∀ b : ℤ, a ≤ b → b < N →
          ((N < b * b → (ff = true ∨ ∃ c : ℤ, a ≤ c ∧ c < b ∧ 1 < gcdD c N)) ∧
           (gcdD b N ≤ 1 → mod_exp b (N - 1) N = 1))) := by
  intro fuel
  induction fuel with
  | zero =>
    intro a ff ha hfa
    constructor
    · intro _ b hab hbN
      exact absurd hbN (by omega)
    · intro _
      rfl
  | succ fuel ih =>
    intro a ff ha hfa
    have haN : a < N := by
      have : ((fuel : ℤ) : ℤ) + 1 = ((fuel + 1 : ℕ) : ℤ) := by push_cast; ring
      omega
    rw [carmLoop_succ, if_pos haN]
    by_cases hstop : N < a * a ∧ ff = false
    · rw [if_pos hstop]
      constructor
      · intro h
        exact absurd h (by simp)
      · intro hR
        rcases (hR a le_rfl haN).1 hstop.1 with hff | ⟨c, hc1, hc2, _⟩
        · rw [hstop.2] at hff
          exact absurd hff (by simp)
        · exact absurd hc2 (by omega)
    · rw [if_neg hstop]
      have hfa' : (a + 1) + (fuel : ℤ) = N := by push_cast at hfa ⊢; omega
      by_cases hgcd : 1 < gcdD a N
      · rw [if_pos hgcd, ih (a + 1) true (by omega) hfa']
        constructor
        · intro hR b hab hbN
          rcases eq_or_lt_of_le hab with rfl | hlt
          · refine ⟨fun hsq => ?_, fun hg => absurd hg (by omega)⟩
            cases ff with
            | true => exact Or.inl rfl
            | false => exact absurd ⟨hsq, rfl⟩ hstop
          · exact ⟨fun _ => Or.inr ⟨a, le_rfl, hlt, hgcd⟩, (hR b (by omega) hbN).2⟩
        · intro hR b hab hbN
          exact ⟨fun _ => Or.inl rfl, (hR b (by omega) hbN).2⟩
      · rw [if_neg hgcd]
        by_cases hfer : mod_exp a (N - 1) N ≠ 1
        · rw [if_pos hfer]
          constructor
          · intro h
            exact absurd h (by simp)
          · intro hR
            exact absurd ((hR a le_rfl haN).2 (by omega)) hfer
        · rw [if_neg hfer]
          push_neg at hfer
          rw [ih (a + 1) ff (by omega) hfa']
          constructor
          · intro hR b hab hbN
            rcases eq_or_lt_of_le hab with rfl | hlt
            · refine ⟨fun hsq => ?_, fun _ => hfer⟩
              cases ff with
              | true => exact Or.inl rfl
              | false => exact absurd ⟨hsq, rfl⟩ hstop
            · have h2 := hR b (by omega) hbN
              refine ⟨fun hsq => ?_, h2.2⟩
              rcases h2.1 hsq with hff | ⟨c, hc1, hc2, hc3⟩
              · exact Or.inl hff
              · exact Or.inr ⟨c, by omega, hc2, hc3⟩
          · intro hR b hab hbN
            have h2 := hR b (by omega) hbN
            refine ⟨fun hsq => ?_, h2.2⟩
            rcases h2.1 hsq with hff | ⟨c, hc1, hc2, hc3⟩
            · exact Or.inl hff
            · rcases eq_or_lt_of_le hc1 with rfl | hc
              · exact absurd hc3 hgcd
              · exact Or.inr ⟨c, by omega, hc2, hc3⟩

/-- Characterisation of `is_carmichael` for odd `N ≥ 3` (the range in
which the loop actually runs). -/
lemma is_carmichael_true_iff {N : ℤ} (h3 : 3 ≤ N) (hodd : N % 2 = 1) :
    (is_carmichael N = true ↔
      ∀ b : ℤ, 2 ≤ b → b < N →
        ((N < b * b → ∃ c : ℤ, 2 ≤ c ∧ c < b ∧ 1 < gcdD c N) ∧
         (gcdD b N ≤ 1 → mod_exp b (N - 1) N = 1))) := by
  unfold is_carmichael
  rw [if_neg (by omega)]
  rw [carmLoop_true_iff N (N - 2).toNat 2 false (by omega) (by omega)]
  constructor
  · intro h b h1 h2
    refine ⟨fun hsq => ((h b h1 h2).1 hsq).resolve_left (by simp), (h b h1 h2).2⟩
  · intro h b h1 h2
    exact ⟨fun hsq => Or.inr ((h b h1 h2).1 hsq), (h b h1 h2).2⟩

/-- The loop body never runs when `N ≤ 1`, so every odd `N ≤ 1` is
classified as a Carmichael number by the source. -/
lemma isCarm_of_le_one {N : ℤ} (h1 : N ≤ 1) (hodd : N % 2 = 1) :
    is_carmichael N = true := by
  unfold is_carmichael
  rw [if_neg (by omega)]
  have h0 : (N - 2).toNat = 0 := by omega
  rw [h0]
  rfl

/-! Number-theoretic helpers used to relate the loop characterisation to
the mathematical definition of a Carmichael number. -/

lemma int_gcd_prime_eq_one {p : ℕ} (hp : p.Prime) {c : ℤ} (hc : 1 ≤ c)
    (hcp : c < (p : ℤ)) : Int.gcd c (p : ℤ) = 1 := by
  by_contra h
  have hg0 : Int.gcd c (p : ℤ) ≠ 0 := by
    intro h0
    rw [Int.gcd_eq_zero_iff] at h0
    omega
  have hg1 : 1 < Int.gcd c (p : ℤ) := by omega
  have hdvd : ((Int.gcd c (p : ℤ) : ℕ) : ℤ) ∣ (p : ℤ) := Int.gcd_dvd_right
  have hdvdn : Int.gcd c (p : ℤ) ∣ p := by exact_mod_cast hdvd
  rcases Nat.Prime.eq_one_or_self_of_dvd hp _ hdvdn with h1 | h1
  · omega
  · have hdvdc : ((Int.gcd c (p : ℤ) : ℕ) : ℤ) ∣ c := Int.gcd_dvd_left
    have hle := Int.le_of_dvd (by omega) hdvdc
    omega

/-- Fermat's little theorem in the form used by the source: every base
`1 ≤ a < p` of a prime `p` satisfies `a^(p-1) mod p = 1`. -/
lemma int_fermat {p : ℕ} (hp : p.Prime) {a : ℤ} (ha1 : 1 ≤ a)
    (hap : a < (p : ℤ)) : (a ^ (p - 1)) % (p : ℤ) = 1 := by
  have ha0 : 0 ≤ a := by omega
  set n := a.toNat with hn
  have hone : ((n : ℕ) : ℤ) = a := Int.toNat_of_nonneg ha0
  have hnp : n < p := by omega
  have hn1 : 1 ≤ n := by omega
  have hcop : Nat.Coprime n p := by
    have hnd : ¬ p ∣ n := by
      intro hdvd
      have := Nat.le_of_dvd (by omega) hdvd
      omega
    exact Nat.coprime_comm.mp ((Nat.Prime.coprime_iff_not_dvd hp).mpr hnd)
  have hmod := Nat.ModEq.pow_totient hcop
  rw [Nat.totient_prime hp] at hmod
  have h2 : n ^ (p - 1) % p = 1 % p := hmod
  have h3 : (1 : ℕ) % p = 1 := Nat.mod_eq_of_lt hp.one_lt
  have h4 : n ^ (p - 1) % p = 1 := by omega
  calc (a ^ (p - 1)) % (p : ℤ)
      = ((n : ℕ) : ℤ) ^ (p - 1) % (p : ℤ) := by rw [hone]
    _ = ((n ^ (p - 1) % p : ℕ) : ℤ) := by push_cast; ring_nf
    _ = 1 := by rw [h4]; rfl

/-! The witness loop of `prime_test` returns the prime classification as
soon as every drawn witness passes Fermat's test. -/

lemma ptLoop_prime {N : ℤ} (hN : 2 ≤ N) (ws : ℕ → ℤ)
    (h : ∀ i, mod_exp (ws i) (N - 1) N = 1) :
    ∀ (r i : ℕ), ptLoop N ws i r = some resultPrime := by
  intro r
  induction r with
  | zero => intro i; rfl
  | succ r ih =>
    intro i
    rw [show ptLoop N ws i (r + 1) =
          (if N ≤ 1 then none
           else if mod_exp (ws i) (N - 1) N = 1 then ptLoop N ws (i + 1) r
           else some resultComposite) from rfl]
    rw [if_neg (by omega), if_pos (h i)]
    exact ih (i + 1)

lemma prime_test_carm {N k : ℤ} {ws : ℕ → ℤ} (h : is_carmichael N = true) :
    prime_test N k ws = some resultCarmichael := by
  unfold prime_test
  rw [if_pos h]

lemma prime_test_not_carm {N k : ℤ} {ws : ℕ → ℤ} (h : is_carmichael N = false) :
    prime_test N k ws = ptLoop N ws 0 k.toNat := by
  unfold prime_test
  rw [if_neg (by simp [h])]

/-- Equivalence between the source's `is_carmichael` and the mathematical
definition, for `N > 1` within the int64-exact range `N^3 < 2^63` (there
the `mod_exp` calls of the loop are exact and the float square-root test
agrees with the integer test). -/
lemma isCarm_iff_spec {N : ℤ} (h1 : 1 < N) (hrange : N ^ 3 < 2 ^ 63) :
    (is_carmichael N = true ↔ carmichaelSpec N) := by
  have hN2 : N ^ 2 < 2 ^ 63 := by nlinarith
  by_cases hodd : N % 2 = 0
  · have hfalse : is_carmichael N = false := by
      unfold is_carmichael
      rw [if_pos hodd]
    rw [hfalse]
    constructor
    · intro h
      exact absurd h (by simp)
    · intro hs
      exact absurd hs.1 (by omega)
  · have hodd1 : N % 2 = 1 := by omega
    have h3 : 3 ≤ N := by omega
    have hcast : ((N.toNat : ℕ) : ℤ) = N := Int.toNat_of_nonneg (by omega)
    rw [is_carmichael_true_iff h3 hodd1]
    constructor
    · intro hch
      refine ⟨hodd1, h1, ?_, ?_⟩
      · intro hp
        obtain ⟨c, hc2, hcN, hcg⟩ := (hch (N - 1) (by omega) (by omega)).1 (by nlinarith)
        rw [gcdD_eq_gcd (by omega) (by omega)] at hcg
        have hone := int_gcd_prime_eq_one hp (show 1 ≤ c by omega)
          (show c < ((N.toNat : ℕ) : ℤ) by omega)
        rw [hcast] at hone
        rw [hone] at hcg
        exact absurd hcg (by norm_num)
      · intro a ha1 haN hcop
        rcases eq_or_lt_of_le ha1 with rfl | ha2
        · rw [one_pow]
          exact Int.emod_eq_of_lt (by omega) (by omega)
        · have hgle : gcdD a N ≤ 1 := by
            rw [gcdD_eq_gcd (by omega) (by omega), hcop]
            norm_num
          have hh := (hch a (by omega) haN).2 hgle
          rw [mod_exp_eq_pow (by omega) (by omega) (by omega) hN2 (by nlinarith)] at hh
          exact hh
    · intro hs b hb2 hbN
      obtain ⟨-, -, hnp, hferm⟩ := hs
      constructor
      · intro hsq
        have hq : (N.toNat.minFac).Prime := Nat.minFac_prime (by omega)
        have hqd : N.toNat.minFac ∣ N.toNat := Nat.minFac_dvd _
        have hqsq : N.toNat.minFac ^ 2 ≤ N.toNat := Nat.minFac_sq_le_self (by omega) hnp
        set q := N.toNat.minFac with hqdef
        have hq2 : 2 ≤ q := hq.two_le
        have hqsqZ : ((q : ℕ) : ℤ) ^ 2 ≤ N := by
          have hc : ((q ^ 2 : ℕ) : ℤ) ≤ ((N.toNat : ℕ) : ℤ) := by exact_mod_cast hqsq
          push_cast at hc
          omega
        refine ⟨(q : ℤ), by exact_mod_cast hq2, by nlinarith, ?_⟩
        rw [gcdD_eq_gcd (by exact_mod_cast Nat.one_le_of_lt hq.one_lt) (by omega)]
        have hgq : Int.gcd (q : ℤ) N = q := by
          rw [← hcast, Int.gcd_natCast_natCast]
          exact Nat.gcd_eq_left hqd
        rw [hgq]
        exact_mod_cast hq.one_lt
      · intro hg
        rw [gcdD_eq_gcd (by omega) (by omega)] at hg
        have hgcd1 : Int.gcd b N = 1 := by
          have h0 : Int.gcd b N ≠ 0 := by
            intro h0
            rw [Int.gcd_eq_zero_iff] at h0
            omega
          omega
        have hF := hferm b (by omega) hbN hgcd1
        rw [mod_exp_eq_pow (by omega) (by omega) (by omega) hN2 (by nlinarith)]
        exact hF

/-! Symbolic evaluation of `is_carmichael` on primes and on products of
three primes, via the loop characterisation (the loops are too long to
evaluate by kernel reduction, but their outcome follows from Fermat's
little theorem and the Chinese remainder theorem). -/

/-- On an odd prime the loop never finds a factor, so the test
`a > sqrt N` fires and `is_carmichael` returns false. -/
lemma isCarm_of_prime (p : ℕ) (hp : p.Prime) (hodd : (p : ℤ) % 2 = 1)
    (h3 : 3 ≤ (p : ℤ)) : is_carmichael (p : ℤ) = false := by
  rcases Bool.eq_false_or_eq_true (is_carmichael (p : ℤ)) with h | h
  case inr => exact h
  case inl =>
    exfalso
    have hch := (is_carmichael_true_iff h3 hodd).mp h
    obtain ⟨c, hc2, hcb, hcg⟩ :=
      (hch ((p : ℤ) - 1) (by omega) (by omega)).1 (by nlinarith)
    rw [gcdD_eq_gcd (by omega) (by omega)] at hcg
    rw [int_gcd_prime_eq_one hp (by omega) (by omega)] at hcg
    exact absurd hcg (by norm_num)

/-- Every base not divisible by the prime `p` dividing `N` satisfies
`b^e ≡ 1 (mod p)` whenever `p - 1` divides `e`. -/
lemma pow_modeq_one (p : ℕ) (hp : p.Prime) (e k : ℕ) (he : e = (p - 1) * k)
    (N b : ℤ) (hdvd : ((p : ℕ) : ℤ) ∣ N) (hcop : Int.gcd b N = 1) :
    b ^ e ≡ 1 [ZMOD ((p : ℕ) : ℤ)] := by
  haveI : Fact p.Prime := ⟨hp⟩
  have hb0 : (b : ZMod p) ≠ 0 := by
    intro h0
    rw [ZMod.intCast_zmod_eq_zero_iff_dvd] at h0
    have hdg : ((p : ℕ) : ℤ) ∣ ((Int.gcd b N : ℕ) : ℤ) := Int.dvd_gcd h0 hdvd
    rw [hcop] at hdg
    have hle : ((p : ℕ) : ℤ) ≤ 1 := Int.le_of_dvd one_pos (by exact_mod_cast hdg)
    have := hp.two_le
    omega
  have h1 : (b : ZMod p) ^ (p - 1) = 1 := ZMod.pow_card_sub_one_eq_one hb0
  have h2 : (b : ZMod p) ^ e = 1 := by
    rw [he, pow_mul, h1, one_pow]
  have h3 : ((b ^ e : ℤ) : ZMod p) = ((1 : ℤ) : ZMod p) := by
    push_cast
    rw [h2]
  exact (ZMod.intCast_eq_intCast_iff _ _ _).mp h3

lemma modeq_mul_combine {a b m n : ℤ} (hco : Int.gcd m n = 1)
    (hm : a ≡ b [ZMOD m]) (hn : a ≡ b [ZMOD n]) : a ≡ b [ZMOD m * n] :=
  (Int.modEq_and_modEq_iff_modEq_mul hco).mp ⟨hm, hn⟩

/-- Fermat's identity modulo a product of three distinct primes whose
`p - 1` all divide the exponent: the defining property of the Carmichael
numbers used in the claims. -/
lemma carm_fermat_all (N : ℤ) (p q r k1 k2 k3 : ℕ)
    (hp : Nat.Prime p) (hq : Nat.Prime q) (hr : Nat.Prime r)
    (h1N : 1 < N) (hN : N = ((p : ℕ) : ℤ) * ((q : ℕ) : ℤ) * ((r : ℕ) : ℤ))
    (he1 : (N - 1).toNat = (p - 1) * k1)
    (he2 : (N - 1).toNat = (q - 1) * k2)
    (he3 : (N - 1).toNat = (r - 1) * k3)
    (hg1 : Int.gcd ((p : ℕ) : ℤ) ((q : ℕ) : ℤ) = 1)
    (hg2 : Int.gcd (((p : ℕ) : ℤ) * ((q : ℕ) : ℤ)) ((r : ℕ) : ℤ) = 1)
    {b : ℤ} (hcop : Int.gcd b N = 1) :
    (b ^ (N - 1).toNat) % N = 1 := by
  have hP := pow_modeq_one p hp _ k1 he1 N b ⟨((q : ℕ) : ℤ) * ((r : ℕ) : ℤ), by rw [hN]; ring⟩ hcop
  have hQ := pow_modeq_one q hq _ k2 he2 N b ⟨((p : ℕ) : ℤ) * ((r : ℕ) : ℤ), by rw [hN]; ring⟩ hcop
  have hR := pow_modeq_one r hr _ k3 he3 N b ⟨((p : ℕ) : ℤ) * ((q : ℕ) : ℤ), by rw [hN]; ring⟩ hcop
  have hPQ := modeq_mul_combine hg1 hP hQ
  have hPQR := modeq_mul_combine hg2 hPQ hR
  rw [← hN] at hPQR
  have hfin : (b ^ (N - 1).toNat) % N = 1 % N := hPQR
  have h1 : (1 : ℤ) % N = 1 := Int.emod_eq_of_lt (by omega) (by omega)
  omega

lemma isCarm_561 : is_carmichael 561 = true := by
  rw [is_carmichael_true_iff (by norm_num) (by norm_num)]
  intro b hb2 hbN
  constructor
  · intro hsq
    exact ⟨3, by norm_num, by nlinarith, by decide⟩
  · intro hg
    rw [gcdD_eq_gcd (by omega) (by omega)] at hg
    have hg1 : Int.gcd b 561 = 1 := by
      have h0 : Int.gcd b 561 ≠ 0 := by
        intro h0
        rw [Int.gcd_eq_zero_iff] at h0
        omega
      omega
    rw [mod_exp_eq_pow (by omega) (by omega) (by omega) (by norm_num) (by nlinarith)]
    exact carm_fermat_all 561 3 11 17 280 56 35 (by norm_num) (by norm_num)
      (by norm_num) (by norm_num) (by norm_num) (by decide) (by decide) (by decide)
      (by norm_num) (by norm_num) hg1

lemma isCarm_1105 : is_carmichael 1105 = true := by
  rw [is_carmichael_true_iff (by norm_num) (by norm_num)]
  intro b hb2 hbN
  constructor
  · intro hsq
    exact ⟨5, by norm_num, by nlinarith, by decide⟩
  · intro hg
    rw [gcdD_eq_gcd (by omega) (by omega)] at hg
    have hg1 : Int.gcd b 1105 = 1 := by
      have h0 : Int.gcd b 1105 ≠ 0 := by
        intro h0
        rw [Int.gcd_eq_zero_iff] at h0
        omega
      omega
    rw [mod_exp_eq_pow (by omega) (by omega) (by omega) (by norm_num) (by nlinarith)]
    exact carm_fermat_all 1105 5 13 17 276 92 69 (by norm_num) (by norm_num)
      (by norm_num) (by norm_num) (by norm_num) (by decide) (by decide) (by decide)
      (by norm_num) (by norm_num) hg1

lemma isCarm_1729 : is_carmichael 1729 = true := by
  rw [is_carmichael_true_iff (by norm_num) (by norm_num)]
  intro b hb2 hbN
  constructor
  · intro hsq
    exact ⟨7, by norm_num, by nlinarith, by decide⟩
  · intro hg
    rw [gcdD_eq_gcd (by omega) (by omega)] at hg
    have hg1 : Int.gcd b 1729 = 1 := by
      have h0 : Int.gcd b 1729 ≠ 0 := by
        intro h0
        rw [Int.gcd_eq_zero_iff] at h0
        omega
      omega
    rw [mod_exp_eq_pow (by omega) (by omega) (by omega) (by norm_num) (by nlinarith)]
    exact carm_fermat_all 1729 7 13 19 288 144 96 (by norm_num) (by norm_num)
      (by norm_num) (by norm_num) (by norm_num) (by decide) (by decide) (by decide)
      (by norm_num) (by norm_num) hg1

lemma isCarm_2465 : is_carmichael 2465 = true := by
  rw [is_carmichael_true_iff (by norm_num) (by norm_num)]
  intro b hb2 hbN
  constructor
  · intro hsq
    exact ⟨5, by norm_num, by nlinarith, by decide⟩
  · intro hg
    rw [gcdD_eq_gcd (by omega) (by omega)] at hg
    have hg1 : Int.gcd b 2465 = 1 := by
      have h0 : Int.gcd b 2465 ≠ 0 := by
        intro h0
        rw [Int.gcd_eq_zero_iff] at h0
        omega
      omega
    rw [mod_exp_eq_pow (by omega) (by omega) (by omega) (by norm_num) (by nlinarith)]
    exact carm_fermat_all 2465 5 17 29 616 154 88 (by norm_num) (by norm_num)
      (by norm_num) (by norm_num) (by norm_num) (by decide) (by decide) (by decide)
      (by norm_num) (by norm_num) hg1

/-! Claim theorems. -/

/-- Claim C1, counterexample: at `N = 1` the claimed equivalence fails.
`is_carmichael(1)` returns True (1 is odd and the `while a < N` loop
body never runs), but 1 is not composite, so the mathematical
characterisation is false at 1. -/
theorem C1_counterexample : is_carmichael 1 = true ∧ ¬ carmichaelSpec 1 :=
  ⟨by decide, fun h => absurd h.2.1 (by norm_num)⟩

/-- Claim C1, amended: for every `N > 1` in the int64-exact range
`N^3 < 2^63` (where the numpy arithmetic of the source is exact),
`is_carmichael(N)` returns True iff `N` is odd, composite, and
`a^(N-1) ≡ 1 (mod N)` for every base `a` coprime to `N`; in particular
`is_carmichael(561) = True`, `is_carmichael(17) = False` and
`is_carmichael(9) = False`. -/
theorem C1_theorem :
    (∀ N : ℤ, 1 < N → N ^ 3 < 2 ^ 63 → (is_carmichael N = true ↔ carmichaelSpec N)) ∧
      is_carmichael 561 = true ∧ is_carmichael 17 = false ∧ is_carmichael 9 = false :=
  ⟨fun _ h1 h2 => isCarm_iff_spec h1 h2, isCarm_561, by decide, by decide⟩

/-- Claim C1, witness: the amended equivalence applied at `N = 9`. -/
theorem C1_witness : is_carmichael 9 = true ↔ carmichaelSpec 9 :=
  C1_theorem.1 9 (by norm_num) (by norm_num)

/-- Claim C2: `mod_exp` does not return `x^y mod N` for all inputs.  At
`x = 2^32`, `y = 2`, `N = 2^63 - 1` the square `z^2 = 2^64` wraps around
to 0 in int64, so the source returns 0 while the exact value is 2. -/
theorem C2_theorem :
    mod_exp 4294967296 2 9223372036854775807 = 0 ∧
      (4294967296 : ℤ) ^ 2 % 9223372036854775807 = 2 :=
  ⟨by decide, by decide⟩

/-- Claim C3: for each of the Carmichael numbers 561, 1105, 1729, 2465
and every `k > 0`, `prime_test` returns the Carmichael classification
regardless of the witness draws (the Carmichael check precedes the
witness loop and is terminal). -/
theorem C3_theorem :
    ∀ N : ℤ, (N = 561 ∨ N = 1105 ∨ N = 1729 ∨ N = 2465) →
      ∀ (k : ℤ) (ws : ℕ → ℤ), 0 < k →
        prime_test N k ws = some resultCarmichael := by
  intro N hN k ws _
  rcases hN with rfl | rfl | rfl | rfl
  · exact prime_test_carm isCarm_561
  · exact prime_test_carm isCarm_1105
  · exact prime_test_carm isCarm_1729
  · exact prime_test_carm isCarm_2465

/-- Claim C3, witness: `prime_test(561, 1)` classifies 561 as
Carmichael. -/
theorem C3_witness : prime_test 561 1 wsOne = some resultCarmichael :=
  C3_theorem 561 (Or.inl rfl) 1 wsOne (by norm_num)

set_option maxRecDepth 8000 in
/-- Claim C4: the prime 3999971 is misclassified.  With the legal
witness draw 3999970 the int64 wraparound inside `mod_exp` corrupts the
Fermat test (the exact value of `3999970^3999970 mod 3999971` is 1, but
the source computes 21125), so `prime_test` returns the composite
classification for a prime. -/
theorem C4_theorem :
    Nat.Prime 3999971 ∧ prime_test 3999971 1 wsBig = some resultComposite := by
  have hprime : Nat.Prime 3999971 := by norm_num
  have hfalse : is_carmichael 3999971 = false := by
    have h := isCarm_of_prime 3999971 hprime (by norm_num) (by norm_num)
    rw [show (((3999971 : ℕ) : ℤ)) = (3999971 : ℤ) from by norm_num] at h
    exact h
  refine ⟨hprime, ?_⟩
  rw [prime_test_not_carm hfalse]
  decide

/-- Claim C5: silent precision loss.  At `x = 3037000500`, `y = 2`,
`N = 2^63 - 1` the intermediate square exceeds the int64 range, wraps
around, and the source returns 145474191 instead of the exact
145474193, with no error surfaced. -/
theorem C5_theorem :
    mod_exp 3037000500 2 9223372036854775807 = 145474191 ∧
      (3037000500 : ℤ) ^ 2 % 9223372036854775807 = 145474193 :=
  ⟨by decide, by decide⟩

/-- Claim C6: `probability(1) = 50` as claimed, but at `k = 63` the
int64 power `np.power(2, 63)` wraps to `-2^63`, so the computed value
`(1 - 1/(-2^63))*100 = 100 + 2^-61` exceeds 100, contradicting the
claimed bound `[0, 100)`. -/
theorem C6_theorem :
    probability 1 = some 50 ∧
      probability 63 = some (230584300921369395225 / 2305843009213693952) ∧
      (100 : ℚ) < 230584300921369395225 / 2305843009213693952 := by
  refine ⟨?_, ?_, by norm_num⟩
  · simp only [probability, wrap64]
    norm_num
  · simp only [probability, wrap64]
    norm_num

/-- Claim C7, counterexample: `mod_exp(2, 1, 0)` does not raise; numpy's
mod-by-zero yields 0 (with a RuntimeWarning), so the call returns the
ordinary value 0, and `mod_exp(2, 0, 0)` returns 1. -/
theorem C7_counterexample : mod_exp 2 1 0 = 0 ∧ mod_exp 2 0 0 = 1 :=
  ⟨by decide, by decide⟩

/-- Claim C7, amended: for `N = 0` the source does not raise a
division-by-zero error: `np.mod(_, 0)` returns 0 with a warning, so
`mod_exp(x, y, 0)` returns 1 when `y = 0` and 0 for every `y ≥ 1`. -/
theorem C7_theorem :
    ∀ x y : ℤ, 0 ≤ y → mod_exp x y 0 = if y = 0 then 1 else 0 := by
  intro x y hy
  by_cases h0 : y = 0
  · subst h0
    rfl
  · rw [if_neg h0]
    obtain ⟨t, ht⟩ : ∃ t, y.toNat = t + 1 := ⟨y.toNat - 1, by omega⟩
    unfold mod_exp
    rw [ht]
    rw [show modExpF x 0 (t + 1) y =
          (if y = 0 then 1
           else
             if y % 2 = 0 then npMod (wrap64 ((modExpF x 0 t (y / 2)) ^ 2)) 0
             else npMod (wrap64 (x * wrap64 ((modExpF x 0 t (y / 2)) ^ 2))) 0)
        from rfl]
    rw [if_neg h0]
    by_cases hp : y % 2 = 0
    · rw [if_pos hp]
      rfl
    · rw [if_neg hp]
      rfl

/-- Claim C7, witness: the amended statement applied at `x = 2`,
`y = 5`. -/
theorem C7_witness : mod_exp 2 5 0 = 0 := by
  simpa using C7_theorem 2 5 (by norm_num)

/-- Claim C8: `gcd(a, 0)` does not return `a`; the source reaches
`a % 0` and raises `ZeroDivisionError` (modelled as `none`), in both
argument orders. -/
theorem C8_theorem : gcd 3 0 = none ∧ gcd 0 3 = none :=
  ⟨by decide, by decide⟩

/-- Claim C9, counterexample: `prime_test(-5, 2)` performs no input
validation and returns the Carmichael classification for the invalid
input `N = -5` instead of an error. -/
theorem C9_counterexample : prime_test (-5) 2 wsOne = some resultCarmichael := by
  decide

/-- Claim C9, amended: `prime_test` validates nothing at entry: for odd
`N ≤ 0` it returns the Carmichael classification for every `k`; for
`k ≤ 0` it draws no witnesses and returns the prime classification
whenever `is_carmichael` is false; and the only failure on invalid
inputs is the `ValueError` raised by `np.random.randint(1, N)` when the
witness loop runs with even `N ≤ 1`. -/
theorem C9_theorem :
    (∀ (N k : ℤ) (ws : ℕ → ℤ), N ≤ 0 → N % 2 = 1 →
        prime_test N k ws = some resultCarmichael) ∧
      (∀ (N k : ℤ) (ws : ℕ → ℤ), k ≤ 0 → is_carmichael N = false →
        prime_test N k ws = some resultPrime) ∧
      (∀ (N k : ℤ) (ws : ℕ → ℤ), N ≤ 1 → N % 2 = 0 → 1 ≤ k →
        prime_test N k ws = none) := by
  refine ⟨?_, ?_, ?_⟩
  · intro N k ws hN hodd
    exact prime_test_carm (isCarm_of_le_one (by omega) hodd)
  · intro N k ws hk hfalse
    rw [prime_test_not_carm hfalse]
    rw [show k.toNat = 0 from by omega]
    rfl
  · intro N k ws hN heven hk
    have hfalse : is_carmichael N = false := by
      unfold is_carmichael
      rw [if_pos heven]
    rw [prime_test_not_carm hfalse]
    obtain ⟨r, hr⟩ : ∃ r, k.toNat = r + 1 := ⟨k.toNat - 1, by omega⟩
    rw [hr]
    rw [show ptLoop N ws 0 (r + 1) =
          (if N ≤ 1 then none
           else if mod_exp (ws 0) (N - 1) N = 1 then ptLoop N ws (0 + 1) r
           else some resultComposite) from rfl]
    rw [if_pos (by omega)]

/-- Claim C9, witness: the first amended clause applied at `N = -7`,
`k = 3`. -/
theorem C9_witness : prime_test (-7) 3 wsOne = some resultCarmichael :=
  C9_theorem.1 (-7) 3 wsOne (by norm_num) (by decide)

/-- Claim C10: for every odd `N ≤ 1` the even test does not fire and the
`while a < N` loop never runs, so `is_carmichael(N)` returns True and
`prime_test(N, k)` returns the Carmichael classification for every `k`
and every witness oracle. -/
theorem C10_theorem :
    ∀ N : ℤ, N ≤ 1 → N % 2 = 1 →
      is_carmichael N = true ∧
        ∀ (k : ℤ) (ws : ℕ → ℤ), prime_test N k ws = some resultCarmichael := by
  intro N h1 h2
  have h := isCarm_of_le_one h1 h2
  exact ⟨h, fun _ _ => prime_test_carm h⟩

/-- Claim C10, witness: the theorem applied at `N = 1`. -/
theorem C10_witness : is_carmichael 1 = true ∧
    ∀ (k : ℤ) (ws : ℕ → ℤ), prime_test 1 k ws = some resultCarmichael :=
  C10_theorem 1 (by norm_num) (by decide)

end Fermat
